import Mathlib

/-!
Verification of the cursor-trail component (`src/components/cursorTrail.tsx`).

The component keeps a raw pointer position, a display position that chases it
exponentially, and a bounded newest-first history of display snapshots, which
is smoothed by a moving average and turned into a piecewise cubic Bézier path.
Coordinates are modelled as rationals (exact arithmetic for the floating-point
expressions of the source), ids as naturals.
-/

namespace CursorTrail

/-- `interface Point { x, y, id }` from the source. -/
structure Point where
  x : ℚ
  y : ℚ
  id : ℕ
deriving DecidableEq, Repr

/-- Default used to model in-range JavaScript indexing `pts[i]`. -/
def defaultPoint : Point := ⟨0, 0, 0⟩

/-- `MAX_POINTS = 80`. -/
def MAX_POINTS : ℕ := 80

/-- `SMOOTHING_FACTOR = 0.75`. -/
def SMOOTHING_FACTOR : ℚ := 3 / 4

/-- `ITERATIONS_PER_FRAME = 4`. -/
def ITERATIONS_PER_FRAME : ℕ := 4

/-- The mutable state of one component instance: `rawPos`, `displayPos`,
`pointId`, the `points` state, and the two flags. -/
structure TrailState where
  rawPos : ℚ × ℚ
  displayPos : ℚ × ℚ
  pointId : ℕ
  points : List Point
  isDesktop : Bool
  isEnabled : Bool
deriving DecidableEq, Repr

/-- The initial state: refs start at `(0,0)` and `0`, `points` at `[]`,
both flags at `true`. -/
def initState : TrailState :=
  { rawPos := (0, 0), displayPos := (0, 0), pointId := 0, points := [],
    isDesktop := true, isEnabled := true }

/-- The `onMouse` handler: overwrites `rawPos` only when
`isDesktop && isEnabled` (source lines 33–38). -/
def onMouse (s : TrailState) (cx cy : ℚ) : TrailState :=
  if s.isDesktop && s.isEnabled then { s with rawPos := (cx, cy) } else s

/-- The `onTouch` handler: overwrites `rawPos` unconditionally
(source lines 39–43). -/
def onTouch (s : TrailState) (cx cy : ℚ) : TrailState :=
  { s with rawPos := (cx, cy) }

/-- The generic exponential chase of lines 61–64, with the smoothing factor
as a parameter: `display += (raw - display) * f` on each coordinate. -/
def advance (f : ℚ) (raw disp : ℚ × ℚ) : ℚ × ℚ :=
  (disp.1 + (raw.1 - disp.1) * f, disp.2 + (raw.2 - disp.2) * f)

/-- Squared Euclidean distance between two positions. -/
def sqDist (a b : ℚ × ℚ) : ℚ :=
  (a.1 - b.1) ^ 2 + (a.2 - b.2) ^ 2

/-- One loop-body iteration of the frame loop (lines 60–69): chase with
`SMOOTHING_FACTOR`, then prepend a snapshot carrying `pointId.current++`. -/
def subStep (s : TrailState) : TrailState :=
  let d := advance SMOOTHING_FACTOR s.rawPos s.displayPos
  { s with
    displayPos := d,
    pointId := s.pointId + 1,
    points := ⟨d.1, d.2, s.pointId⟩ :: s.points }

/-- The `for` loop of lines 59–70: `n` successive `subStep`s. -/
def loopIter : ℕ → TrailState → TrailState
  | 0, s => s
  | n + 1, s => loopIter n (subStep s)

/-- One tick of the frame loop `loop` (lines 55–73): when
`isEnabled && isDesktop`, run `ITERATIONS_PER_FRAME` sub-steps and slice the
history to the first `MAX_POINTS` entries; otherwise leave the state alone. -/
def frameStep (s : TrailState) : TrailState :=
  if s.isEnabled && s.isDesktop then
    let s4 := loopIter ITERATIONS_PER_FRAME s
    { s4 with points := s4.points.take MAX_POINTS }
  else s

/-- The spec's `pushDisplaySnapshot`: one sub-step followed immediately by
truncation to capacity. The frame loop's batched truncation is proved equal
to four of these below. -/
def pushStep (s : TrailState) : TrailState :=
  let s1 := subStep s
  { s1 with points := s1.points.take MAX_POINTS }

/-- A sequence of pushes, the raw target overwritten arbitrarily before each
push (as the event handlers may do between sub-steps). -/
def pushRun : TrailState → List (ℚ × ℚ) → TrailState
  | s, [] => s
  | s, r :: rs => pushRun (pushStep { s with rawPos := r }) rs

/-- Per-frame external input: the two flags as the effect closures see them,
and the raw target recorded by the handlers before the tick. -/
structure FrameInput where
  enabled : Bool
  desktop : Bool
  raw : ℚ × ℚ
deriving DecidableEq, Repr

/-- Run a sequence of frame ticks, each preceded by the externally driven
updates of the flags and the raw target. States reachable from `initState`
by `runFrames` are the reachable states of one component instance. -/
def runFrames : TrailState → List FrameInput → TrailState
  | s, [] => s
  | s, fi :: rest =>
      runFrames
        (frameStep { s with isEnabled := fi.enabled, isDesktop := fi.desktop,
                            rawPos := fi.raw }) rest

/-- Number of frames of a trace on which the gate `isEnabled && isDesktop`
is open; each such frame performs `ITERATIONS_PER_FRAME` pushes. -/
def countActive (ins : List FrameInput) : ℕ :=
  (ins.filter (fun fi => fi.enabled && fi.desktop)).length

/-- The inner accumulation of `smoothPoints` at index `i` (lines 103–109):
window `[max(0, i-W+1) .. i]`, arithmetic means of its `x`s and `y`s, the
id of `points[i]`. Nat subtraction makes `i + 1 - windowSize` exactly
`max(0, i - windowSize + 1)`. -/
def smoothAt (points : List Point) (windowSize i : ℕ) : Point :=
  let lo := i + 1 - windowSize
  let window := (points.drop lo).take (i + 1 - lo)
  { x := (window.map Point.x).sum / (window.length : ℚ),
    y := (window.map Point.y).sum / (window.length : ℚ),
    id := (points.getD i defaultPoint).id }

/-- `smoothPoints` (lines 99–112): identity on fewer than 2 points, else the
per-index moving average. -/
def smoothPoints (points : List Point) (windowSize : ℕ) : List Point :=
  if points.length < 2 then points
  else (List.range points.length).map (fun i => smoothAt points windowSize i)

/-- One cubic Bézier segment `C cp1, cp2, endp` of the emitted path. -/
structure CubicSeg where
  cp1 : ℚ × ℚ
  cp2 : ℚ × ℚ
  endp : ℚ × ℚ
deriving DecidableEq, Repr

/-- Default used to model in-range indexing into the segment list. -/
def defaultSeg : CubicSeg := ⟨(0, 0), (0, 0), (0, 0)⟩

/-- The path description: the empty string, or `M start` followed by cubic
segments, abstracting the string of the source structurally. -/
inductive PathDesc where
  | empty : PathDesc
  | moveCubics (start : ℚ × ℚ) (segs : List CubicSeg) : PathDesc
deriving DecidableEq, Repr

/-- The segments of a path description. -/
def PathDesc.segsOf : PathDesc → List CubicSeg
  | .empty => []
  | .moveCubics _ segs => segs

/-- The initial `M` target of a path description, if any. -/
def PathDesc.startOf : PathDesc → Option (ℚ × ℚ)
  | .empty => none
  | .moveCubics p _ => some p

/-- Segment `i` of `generateSmoothPath` (lines 85–93): neighborhood
`p0 = i > 0 ? pts[i-1] : pts[i]`, `p1 = pts[i]`, `p2 = pts[i+1]`,
`p3 = i < pts.length - 2 ? pts[i+2] : p2`, and the `/ 6` control points. -/
def segAt (pts : List Point) (i : ℕ) : CubicSeg :=
  let p1 := pts.getD i defaultPoint
  let p2 := pts.getD (i + 1) defaultPoint
  let p0 := if 0 < i then pts.getD (i - 1) defaultPoint else p1
  let p3 := if i < pts.length - 2 then pts.getD (i + 2) defaultPoint else p2
  { cp1 := (p1.x + (p2.x - p0.x) / 6, p1.y + (p2.y - p0.y) / 6),
    cp2 := (p2.x - (p3.x - p1.x) / 6, p2.y - (p3.y - p1.y) / 6),
    endp := (p2.x, p2.y) }

/-- `generateSmoothPath` (lines 81–96): empty on fewer than 2 points, else a
move to `pts[0]` and one cubic segment per consecutive pair. -/
def generateSmoothPath (pts : List Point) : PathDesc :=
  if pts.length < 2 then PathDesc.empty
  else
    PathDesc.moveCubics ((pts.getD 0 defaultPoint).x, (pts.getD 0 defaultPoint).y)
      ((List.range (pts.length - 1)).map (fun i => segAt pts i))

/-- The render body's path computation (lines 114–115): `null` (no path at
all) when `!isDesktop`, otherwise `generateSmoothPath(smoothPoints(points))`
is computed — even when `isEnabled` is false. -/
def renderPath (s : TrailState) : Option PathDesc :=
  if s.isDesktop = false then none
  else some (generateSmoothPath (smoothPoints s.points 6))

/-- Control points as the specification words them: for the pair
`(p1, p2)` at index `i`, `p0` falls back to `p1` when `i = 0`, `p3` falls
back to `p2` when `i + 2` is past the end, `cp1 = p1 + (p2 - p0)/6`,
`cp2 = p2 - (p3 - p1)/6`, endpoint exactly `p2`. Compared against `segAt`. -/
def catmullSegFromSpec (pts : List Point) (i : ℕ) : CubicSeg :=
  let p1 := pts.getD i defaultPoint
  let p2 := pts.getD (i + 1) defaultPoint
  let p0 := if i = 0 then p1 else pts.getD (i - 1) defaultPoint
  let p3 := if i + 2 < pts.length then pts.getD (i + 2) defaultPoint else p2
  { cp1 := (p1.x + (p2.x - p0.x) / 6, p1.y + (p2.y - p0.y) / 6),
    cp2 := (p2.x - (p3.x - p1.x) / 6, p2.y - (p3.y - p1.y) / 6),
    endp := (p2.x, p2.y) }

/-- Truncating the history before a push changes nothing: pushing onto an
already-truncated history and truncating again gives the push on the
untruncated history. This is why the frame loop may slice once per frame. -/
theorem take_cons_take {α : Type} (n : ℕ) (hn : 1 ≤ n) (x : α) (l : List α) :
    (x :: l.take n).take n = (x :: l).take n := by
  cases n with
  | zero => omega
  | succ m =>
    rw [List.take_succ_cons, List.take_succ_cons, List.take_take]
    congr 1
    congr 1
    exact inf_eq_left.mpr (Nat.le_succ m)

/-- `pushStep` ignores any pre-truncation of the history. -/
theorem pushStep_take (t : TrailState) :
    pushStep { t with points := t.points.take MAX_POINTS } = pushStep t := by
  simp only [pushStep, subStep]
  refine congrArg (fun l => { t with
      displayPos := advance SMOOTHING_FACTOR t.rawPos t.displayPos,
      pointId := t.pointId + 1, points := l } : List Point → TrailState) ?_
  exact take_cons_take MAX_POINTS (by decide) _ _

/-- One history push grows the length by one, capped at capacity. -/
theorem pushStep_points_length (s : TrailState) :
    (pushStep s).points.length = min (s.points.length + 1) MAX_POINTS := by
  simp only [pushStep, subStep, List.length_take, List.length_cons]
  omega

/-- Length after a run of pushes, from any state within capacity. -/
theorem pushRun_points_length (rs : List (ℚ × ℚ)) :
    ∀ s : TrailState, s.points.length ≤ MAX_POINTS →
      (pushRun s rs).points.length = min (s.points.length + rs.length) MAX_POINTS := by
  induction rs with
  | nil =>
      intro s h
      simp only [pushRun, List.length_nil, Nat.add_zero]
      omega
  | cons r rs ih =>
      intro s h
      have h1 : (pushStep { s with rawPos := r }).points.length
          = min (s.points.length + 1) MAX_POINTS :=
        pushStep_points_length { s with rawPos := r }
      have h2 : (pushStep { s with rawPos := r }).points.length ≤ MAX_POINTS := by
        omega
      rw [pushRun, ih _ h2, h1, List.length_cons]
      omega

/-- A gated frame tick is exactly four spec-level pushes. -/
theorem frameStep_eq_pushSteps (s : TrailState)
    (he : s.isEnabled = true) (hd : s.isDesktop = true) :
    frameStep s = pushStep (pushStep (pushStep (pushStep s))) := by
  have hgate : (s.isEnabled && s.isDesktop) = true := by simp [he, hd]
  have final : frameStep s = pushStep (subStep (subStep (subStep s))) := by
    unfold frameStep
    rw [hgate]
    rfl
  have step1 : pushStep (pushStep (pushStep (pushStep s)))
      = pushStep (pushStep (pushStep (subStep s))) :=
    congrArg (fun t => pushStep (pushStep t)) (pushStep_take (subStep s))
  have step2 : pushStep (pushStep (pushStep (subStep s)))
      = pushStep (pushStep (subStep (subStep s))) :=
    congrArg (fun t => pushStep t) (pushStep_take (subStep (subStep s)))
  have step3 : pushStep (pushStep (subStep (subStep s)))
      = pushStep (subStep (subStep (subStep s))) :=
    pushStep_take (subStep (subStep (subStep s)))
  exact final.trans (step3.symm.trans (step2.symm.trans step1.symm))

/-- Claim C1: after every push the history length is at most `C = 80` and
equals `min(totalPushes, C)` — for every sequence of pushes from a fresh
instance, whatever raw targets occur between pushes — and the frame loop's
batched slice performs exactly four such pushes per gated tick. -/
theorem bounded_buffer :
    (∀ raws : List (ℚ × ℚ),
        (pushRun initState raws).points.length = min raws.length MAX_POINTS
        ∧ (pushRun initState raws).points.length ≤ MAX_POINTS)
    ∧ ∀ s : TrailState, s.isEnabled = true → s.isDesktop = true →
        frameStep s = pushStep (pushStep (pushStep (pushStep s))) := by
  constructor
  · intro raws
    have h0 : initState.points.length = 0 := rfl
    have h := pushRun_points_length raws initState (by rw [h0]; omega)
    rw [h0, Nat.zero_add] at h
    refine ⟨h, ?_⟩
    rw [h]
    exact min_le_right _ _
  · exact frameStep_eq_pushSteps

/-- Witness for C1: three pushes from a fresh instance leave three points,
and a frame tick of the initial state is four pushes. -/
theorem bounded_buffer_witness :
    (pushRun initState [(1, 1), (2, 2), (3, 3)]).points.length
        = min ([((1 : ℚ), (1 : ℚ)), (2, 2), (3, 3)]).length MAX_POINTS
    ∧ frameStep initState = pushStep (pushStep (pushStep (pushStep initState))) :=
  ⟨(bounded_buffer.1 [(1, 1), (2, 2), (3, 3)]).1,
    bounded_buffer.2 initState rfl rfl⟩

/-- The id invariant of one buffer instance: ids strictly decrease from the
newest entry toward the tail, and every stored id is below the counter. -/
def idsInv (s : TrailState) : Prop :=
  (s.points.map Point.id).Pairwise (fun a b => b < a)
  ∧ ∀ p ∈ s.points, p.id < s.pointId

/-- A sub-step preserves the id invariant: the fresh point takes the counter
value, which dominates every stored id. -/
theorem idsInv_subStep (s : TrailState) (h : idsInv s) : idsInv (subStep s) := by
  obtain ⟨hpw, hlt⟩ := h
  constructor
  · simp only [subStep, List.map_cons]
    refine List.Pairwise.cons ?_ hpw
    intro b hb
    simp only [List.mem_map] at hb
    obtain ⟨p, hp, rfl⟩ := hb
    exact hlt p hp
  · intro p hp
    simp only [subStep, List.mem_cons] at hp
    rcases hp with rfl | hp
    · simp [subStep]
    · have := hlt p hp
      simp only [subStep]
      omega

/-- Truncation preserves the id invariant. -/
theorem idsInv_take (s : TrailState) (n : ℕ) (h : idsInv s) :
    idsInv { s with points := s.points.take n } := by
  obtain ⟨hpw, hlt⟩ := h
  constructor
  · simp only [List.map_take]
    exact hpw.sublist (List.take_sublist _ _)
  · intro p hp
    exact hlt p (List.mem_of_mem_take hp)

/-- The whole sub-step loop preserves the id invariant. -/
theorem idsInv_loopIter (n : ℕ) :
    ∀ s : TrailState, idsInv s → idsInv (loopIter n s) := by
  induction n with
  | zero => intro s h; exact h
  | succ m ih => intro s h; exact ih _ (idsInv_subStep s h)

/-- A frame tick preserves the id invariant. -/
theorem idsInv_frameStep (s : TrailState) (h : idsInv s) : idsInv (frameStep s) := by
  unfold frameStep
  split
  · exact idsInv_take _ _ (idsInv_loopIter _ _ h)
  · exact h

/-- Any run of frame ticks preserves the id invariant (the external flag and
raw-target updates touch neither the history nor the counter). -/
theorem idsInv_runFrames (ins : List FrameInput) :
    ∀ s : TrailState, idsInv s → idsInv (runFrames s ins) := by
  induction ins with
  | nil => intro s h; exact h
  | cons fi rest ih =>
      intro s h
      exact ih _ (idsInv_frameStep _ h)

/-- The counter advances by `ITERATIONS_PER_FRAME` on each sub-step loop. -/
theorem pointId_loopIter (n : ℕ) :
    ∀ s : TrailState, (loopIter n s).pointId = s.pointId + n := by
  induction n with
  | zero => intro s; rfl
  | succ m ih =>
      intro s
      rw [loopIter, ih]
      simp only [subStep]
      omega

/-- Counter evolution over a run: four fresh ids per gated frame. -/
theorem pointId_runFrames (ins : List FrameInput) :
    ∀ s : TrailState,
      (runFrames s ins).pointId = s.pointId + ITERATIONS_PER_FRAME * countActive ins := by
  induction ins with
  | nil => intro s; simp [runFrames, countActive]
  | cons fi rest ih =>
      intro s
      rw [runFrames, ih]
      unfold frameStep countActive
      rcases hfi : fi.enabled && fi.desktop with _ | _
      · simp only [List.filter_cons, hfi]
        rw [if_neg (by simp [hfi])]
        simp [countActive, hfi]
      · rw [if_pos (by simp [hfi]), pointId_loopIter]
        simp [countActive, List.filter_cons, hfi]
        ring

/-- Claim C2: in every reachable state, walking the history from index 0
(newest) toward the tail yields strictly decreasing ids, hence no two stored
points share an id; and over the whole lifetime the counter has allocated
exactly `4 · activeFrames` sequential ids (each push takes the current
counter value, so no id is ever reissued). -/
theorem id_ordering (ins : List FrameInput) :
    ((runFrames initState ins).points.map Point.id).Pairwise (fun a b => b < a)
    ∧ ((runFrames initState ins).points.map Point.id).Nodup
    ∧ (runFrames initState ins).pointId = ITERATIONS_PER_FRAME * countActive ins := by
  have h : idsInv (runFrames initState ins) := by
    refine idsInv_runFrames ins initState ⟨?_, ?_⟩
    · simp [initState]
    · simp [initState]
  refine ⟨h.1, ?_, ?_⟩
  · exact h.1.imp (fun hab => (ne_of_gt hab))
  · have := pointId_runFrames ins initState
    simpa [initState] using this

/-- Witness for C2 on a two-frame trace (one gated, one suppressed). -/
theorem id_ordering_witness :
    ((runFrames initState [⟨true, true, (50, 0)⟩, ⟨false, true, (9, 9)⟩]).points.map
        Point.id).Pairwise (fun a b => b < a)
    ∧ (runFrames initState [⟨true, true, (50, 0)⟩, ⟨false, true, (9, 9)⟩]).pointId
        = ITERATIONS_PER_FRAME * countActive [⟨true, true, (50, 0)⟩, ⟨false, true, (9, 9)⟩] :=
  ⟨(id_ordering [⟨true, true, (50, 0)⟩, ⟨false, true, (9, 9)⟩]).1,
    (id_ordering [⟨true, true, (50, 0)⟩, ⟨false, true, (9, 9)⟩]).2.2⟩

/-- Claim C3: with the raw target fixed, one `advance` with factor `f ∈ (0,1]`
scales each coordinate residual `|raw - display|` by exactly `(1-f)` (hence the
squared distance by `(1-f)^2`), the residual never grows, and the display never
passes the raw target on either coordinate. -/
theorem advance_convergence (f : ℚ) (hf0 : 0 < f) (hf1 : f ≤ 1) (raw disp : ℚ × ℚ) :
    |raw.1 - (advance f raw disp).1| = (1 - f) * |raw.1 - disp.1|
    ∧ |raw.2 - (advance f raw disp).2| = (1 - f) * |raw.2 - disp.2|
    ∧ |raw.1 - (advance f raw disp).1| ≤ |raw.1 - disp.1|
    ∧ |raw.2 - (advance f raw disp).2| ≤ |raw.2 - disp.2|
    ∧ sqDist raw (advance f raw disp) = (1 - f) ^ 2 * sqDist raw disp
    ∧ (disp.1 ≤ raw.1 → disp.1 ≤ (advance f raw disp).1 ∧ (advance f raw disp).1 ≤ raw.1)
    ∧ (raw.1 ≤ disp.1 → raw.1 ≤ (advance f raw disp).1 ∧ (advance f raw disp).1 ≤ disp.1)
    ∧ (disp.2 ≤ raw.2 → disp.2 ≤ (advance f raw disp).2 ∧ (advance f raw disp).2 ≤ raw.2)
    ∧ (raw.2 ≤ disp.2 → raw.2 ≤ (advance f raw disp).2 ∧ (advance f raw disp).2 ≤ disp.2) := by
  have hfle : (0 : ℚ) ≤ 1 - f := by linarith
  have e1 : raw.1 - (advance f raw disp).1 = (raw.1 - disp.1) * (1 - f) := by
    simp only [advance]; ring
  have e2 : raw.2 - (advance f raw disp).2 = (raw.2 - disp.2) * (1 - f) := by
    simp only [advance]; ring
  have a1 : |raw.1 - (advance f raw disp).1| = (1 - f) * |raw.1 - disp.1| := by
    rw [e1, abs_mul, abs_of_nonneg hfle]; ring
  have a2 : |raw.2 - (advance f raw disp).2| = (1 - f) * |raw.2 - disp.2| := by
    rw [e2, abs_mul, abs_of_nonneg hfle]; ring
  refine ⟨a1, a2, ?_, ?_, ?_, ?_, ?_, ?_, ?_⟩
  · rw [a1]
    nlinarith [abs_nonneg (raw.1 - disp.1)]
  · rw [a2]
    nlinarith [abs_nonneg (raw.2 - disp.2)]
  · simp only [sqDist, advance]; ring
  · intro h
    refine ⟨?_, ?_⟩
    · simp only [advance]; nlinarith
    · nlinarith [e1]
  · intro h
    refine ⟨?_, ?_⟩
    · nlinarith [e1]
    · simp only [advance]; nlinarith
  · intro h
    refine ⟨?_, ?_⟩
    · simp only [advance]; nlinarith
    · nlinarith [e2]
  · intro h
    refine ⟨?_, ?_⟩
    · nlinarith [e2]
    · simp only [advance]; nlinarith

/-- Witness for C3 at `f = 3/4`, `raw = (100, 0)`, `disp = (0, 0)`. -/
theorem advance_convergence_witness :
    (0 : ℚ) < 3 / 4 ∧ (3 / 4 : ℚ) ≤ 1
    ∧ |((100, 0) : ℚ × ℚ).1 - (advance (3 / 4) (100, 0) (0, 0)).1|
        = (1 - 3 / 4) * |((100, 0) : ℚ × ℚ).1 - ((0, 0) : ℚ × ℚ).1| :=
  ⟨by norm_num, by norm_num,
    (advance_convergence (3 / 4) (by norm_num) (by norm_num) (100, 0) (0, 0)).1⟩

/-- Claim C6: on fewer than 2 points both curve stages are no-ops:
`smoothPoints` returns its input unchanged and `generateSmoothPath` returns
the empty path description. -/
theorem short_input_noop (pts : List Point) (W : ℕ) (h : pts.length < 2) :
    smoothPoints pts W = pts ∧ generateSmoothPath pts = PathDesc.empty := by
  constructor
  · simp [smoothPoints, h]
  · simp [generateSmoothPath, h]

/-- Witness for C6 on the one-point history `[⟨1, 2, 3⟩]`. -/
theorem short_input_noop_witness :
    ([(⟨1, 2, 3⟩ : Point)] : List Point).length < 2
    ∧ smoothPoints [⟨1, 2, 3⟩] 6 = [⟨1, 2, 3⟩]
    ∧ generateSmoothPath [⟨1, 2, 3⟩] = PathDesc.empty :=
  ⟨by decide, (short_input_noop [⟨1, 2, 3⟩] 6 (by decide)).1,
    (short_input_noop [⟨1, 2, 3⟩] 6 (by decide)).2⟩

/-- Claim C7: from display `(0,0)` with raw target `(100,0)`, one frame tick
(4 sub-steps at factor 3/4) leaves `display.x = 100·(1 − (1/4)^4) =
99.609375` and pushes exactly 4 points whose ids, newest first, are
`[3, 2, 1, 0]` — strictly increasing in order of creation. -/
theorem frame_end_to_end :
    (frameStep { initState with rawPos := (100, 0) }).displayPos
        = (100 * (1 - (1 / 4 : ℚ) ^ 4), 0)
    ∧ (100 * (1 - (1 / 4 : ℚ) ^ 4)) = 99609375 / 1000000
    ∧ (frameStep { initState with rawPos := (100, 0) }).points.map Point.id
        = [3, 2, 1, 0]
    ∧ (frameStep { initState with rawPos := (100, 0) }).points.length = 4 := by
  refine ⟨?_, by norm_num, by decide, by decide⟩
  simp only [frameStep, loopIter, subStep, advance, initState, SMOOTHING_FACTOR,
    ITERATIONS_PER_FRAME, MAX_POINTS]
  norm_num

/-- Counterexample to claim C8 as stated: in the state that is desktop-
classified but disabled (not enabled-active), the render body still computes
a path description (`renderPath ≠ none`); only its display is hidden. -/
theorem render_disabled_counterexample :
    ¬ (({ initState with isEnabled := false } : TrailState).isEnabled = true
        ∧ ({ initState with isEnabled := false } : TrailState).isDesktop = true)
    ∧ renderPath { initState with isEnabled := false } ≠ none := by
  constructor
  · decide
  · decide

/-- Claim C8 as amended: outside the enabled-active state a frame tick
mutates nothing; the path computation is skipped exactly when the device is
not desktop-classified, while a desktop-classified but disabled state still
computes the path. -/
theorem render_gating_amended (s : TrailState) :
    (¬ (s.isEnabled = true ∧ s.isDesktop = true) → frameStep s = s)
    ∧ (s.isDesktop = false → renderPath s = none)
    ∧ (s.isDesktop = true →
        renderPath s = some (generateSmoothPath (smoothPoints s.points 6))) := by
  refine ⟨?_, ?_, ?_⟩
  · intro h
    have hb : (s.isEnabled && s.isDesktop) = false := by
      cases he : s.isEnabled <;> cases hd : s.isDesktop <;> simp_all
    simp [frameStep, hb]
  · intro h; simp [renderPath, h]
  · intro h; simp [renderPath, h]

/-- Witness for the amended C8 in the desktop-but-disabled state. -/
theorem render_gating_amended_witness :
    frameStep { initState with isEnabled := false }
      = { initState with isEnabled := false } :=
  (render_gating_amended { initState with isEnabled := false }).1 (by decide)

/-- Counterexample to claim C9 as stated: a mouse event at `(5, 7)` in a
non-desktop-classified state does not overwrite the raw sample. -/
theorem record_raw_counterexample :
    (onMouse { initState with isDesktop := false } 5 7).rawPos ≠ (5, 7) := by
  decide

/-- Claim C9 as amended: a touch event overwrites the raw sample
unconditionally, while a mouse event overwrites it only in the
desktop-classified enabled state and is otherwise a no-op. -/
theorem record_raw_amended (s : TrailState) (cx cy : ℚ) :
    onTouch s cx cy = { s with rawPos := (cx, cy) }
    ∧ onMouse s cx cy
        = (if s.isDesktop && s.isEnabled then { s with rawPos := (cx, cy) } else s) :=
  ⟨rfl, rfl⟩

/-- Claim C10: the two handlers gate differently — touch updates the raw
sample regardless of the flags, mouse updates it when desktop-classified and
enabled, and mouse leaves the whole state unchanged otherwise. -/
theorem handler_preconditions (s : TrailState) (cx cy : ℚ) :
    (onTouch s cx cy).rawPos = (cx, cy)
    ∧ (s.isDesktop = true → s.isEnabled = true → (onMouse s cx cy).rawPos = (cx, cy))
    ∧ (¬ (s.isDesktop = true ∧ s.isEnabled = true) → onMouse s cx cy = s) := by
  refine ⟨rfl, ?_, ?_⟩
  · intro hd he
    simp [onMouse, hd, he]
  · intro h
    have hb : (s.isDesktop && s.isEnabled) = false := by
      cases hd : s.isDesktop <;> cases he : s.isEnabled <;> simp_all
    simp [onMouse, hb]

/-- Witness for C10: a mouse event in a disabled state changes nothing,
a touch event in the same state records the coordinates. -/
theorem handler_preconditions_witness :
    (onTouch { initState with isEnabled := false } 5 7).rawPos = (5, 7)
    ∧ onMouse { initState with isEnabled := false } 5 7
        = { initState with isEnabled := false } :=
  ⟨(handler_preconditions { initState with isEnabled := false } 5 7).1,
    (handler_preconditions { initState with isEnabled := false } 5 7).2.2 (by decide)⟩

/-- Sum of an accessor over the window `[a .. a+n-1]` of a history, as a
`Finset.range` sum over in-range indices. -/
theorem sum_map_take_drop (f : Point → ℚ) (l : List Point) :
    ∀ (n a : ℕ), a + n ≤ l.length →
      (((l.drop a).take n).map f).sum
        = ∑ k ∈ Finset.range n, f (l.getD (a + k) defaultPoint) := by
  intro n
  induction n with
  | zero => intro a h; simp
  | succ m ih =>
      intro a h
      have ha : a < l.length := by omega
      have hd : l.drop a = l.getD a defaultPoint :: l.drop (a + 1) := by
        rw [List.getD_eq_getElem l defaultPoint ha]
        exact List.drop_eq_getElem_cons ha
      rw [hd, List.take_succ_cons, List.map_cons, List.sum_cons, ih (a + 1) (by omega),
        Finset.sum_range_succ']
      rw [add_comm]
      congr 1
      refine Finset.sum_congr rfl ?_
      intro k _
      congr 2
      omega

/-- The moving average indexes into `smoothAt` at every position. -/
theorem smoothPoints_getD_eq (pts : List Point) (W i : ℕ)
    (h2 : 2 ≤ pts.length) (hi : i < pts.length) :
    (smoothPoints pts W).getD i defaultPoint = smoothAt pts W i := by
  rw [smoothPoints, if_neg (by omega)]
  rw [List.getD_eq_getElem?_getD, List.getElem?_map, List.getElem?_range hi]
  rfl

/-- The `x` produced by `smoothAt` is the arithmetic mean of the input `x`s
over the index interval `[i+1-W .. i]`. -/
theorem smoothAt_mean_x (pts : List Point) (W i : ℕ) (hi : i < pts.length) :
    (smoothAt pts W i).x
      = (∑ j ∈ Finset.Icc (i + 1 - W) i, (pts.getD j defaultPoint).x)
          / ((Finset.Icc (i + 1 - W) i).card : ℚ) := by
  have hlen : (i + 1 - W) + (i + 1 - (i + 1 - W)) ≤ pts.length := by omega
  have hsum := sum_map_take_drop Point.x pts (i + 1 - (i + 1 - W)) (i + 1 - W) hlen
  have hwl : ((pts.drop (i + 1 - W)).take (i + 1 - (i + 1 - W))).length
      = i + 1 - (i + 1 - W) := by
    rw [List.length_take, List.length_drop]
    omega
  have hicc : ∑ j ∈ Finset.Icc (i + 1 - W) i, (pts.getD j defaultPoint).x
      = ∑ k ∈ Finset.range (i + 1 - (i + 1 - W)),
          (pts.getD ((i + 1 - W) + k) defaultPoint).x := by
    rw [← Nat.Ico_succ_right, Finset.sum_Ico_eq_sum_range]
  have hcard : ((Finset.Icc (i + 1 - W) i).card : ℚ)
      = ((i + 1 - (i + 1 - W) : ℕ) : ℚ) := by
    rw [Nat.card_Icc]
  rw [smoothAt]
  simp only
  rw [hwl, hsum, hicc, hcard]

/-- Same statement for the `y` coordinate. -/
theorem smoothAt_mean_y (pts : List Point) (W i : ℕ) (hi : i < pts.length) :
    (smoothAt pts W i).y
      = (∑ j ∈ Finset.Icc (i + 1 - W) i, (pts.getD j defaultPoint).y)
          / ((Finset.Icc (i + 1 - W) i).card : ℚ) := by
  have hlen : (i + 1 - W) + (i + 1 - (i + 1 - W)) ≤ pts.length := by omega
  have hsum := sum_map_take_drop Point.y pts (i + 1 - (i + 1 - W)) (i + 1 - W) hlen
  have hwl : ((pts.drop (i + 1 - W)).take (i + 1 - (i + 1 - W))).length
      = i + 1 - (i + 1 - W) := by
    rw [List.length_take, List.length_drop]
    omega
  have hicc : ∑ j ∈ Finset.Icc (i + 1 - W) i, (pts.getD j defaultPoint).y
      = ∑ k ∈ Finset.range (i + 1 - (i + 1 - W)),
          (pts.getD ((i + 1 - W) + k) defaultPoint).y := by
    rw [← Nat.Ico_succ_right, Finset.sum_Ico_eq_sum_range]
  have hcard : ((Finset.Icc (i + 1 - W) i).card : ℚ)
      = ((i + 1 - (i + 1 - W) : ℕ) : ℚ) := by
    rw [Nat.card_Icc]
  rw [smoothAt]
  simp only
  rw [hwl, hsum, hicc, hcard]

/-- Claim C4: on at least 2 points, `smoothPoints` keeps the length, maps each
index `i` to the arithmetic mean of the inputs over `[max(0, i-W+1) .. i]`
(written with truncated subtraction as `[i+1-W .. i]`), keeps the id of input
`i`; and on newest-first `x`s `[10, 20, 30]` with `W = 3` it yields
`[10, 15, 20]`. -/
theorem smoothing_average (pts : List Point) (W : ℕ) (h2 : 2 ≤ pts.length) :
    (smoothPoints pts W).length = pts.length
    ∧ (∀ i, i < pts.length →
        ((smoothPoints pts W).getD i defaultPoint).x
          = (∑ j ∈ Finset.Icc (i + 1 - W) i, (pts.getD j defaultPoint).x)
              / ((Finset.Icc (i + 1 - W) i).card : ℚ)
        ∧ ((smoothPoints pts W).getD i defaultPoint).y
          = (∑ j ∈ Finset.Icc (i + 1 - W) i, (pts.getD j defaultPoint).y)
              / ((Finset.Icc (i + 1 - W) i).card : ℚ)
        ∧ ((smoothPoints pts W).getD i defaultPoint).id
          = (pts.getD i defaultPoint).id)
    ∧ (smoothPoints [⟨10, 0, 2⟩, ⟨20, 0, 1⟩, ⟨30, 0, 0⟩] 3).map Point.x
        = [10, 15, 20] := by
  refine ⟨?_, ?_, ?_⟩
  · rw [smoothPoints, if_neg (by omega)]
    simp
  · intro i hi
    rw [smoothPoints_getD_eq pts W i h2 hi]
    exact ⟨smoothAt_mean_x pts W i hi, smoothAt_mean_y pts W i hi, rfl⟩
  · norm_num [smoothPoints, smoothAt, List.range_succ]

/-- Witness for C4 on the spec's own `W = 3` example history. -/
theorem smoothing_average_witness :
    2 ≤ ([⟨10, 0, 2⟩, ⟨20, 0, 1⟩, ⟨30, 0, 0⟩] : List Point).length
    ∧ (smoothPoints [⟨10, 0, 2⟩, ⟨20, 0, 1⟩, ⟨30, 0, 0⟩] 3).length
        = ([⟨10, 0, 2⟩, ⟨20, 0, 1⟩, ⟨30, 0, 0⟩] : List Point).length :=
  ⟨by decide, (smoothing_average [⟨10, 0, 2⟩, ⟨20, 0, 1⟩, ⟨30, 0, 0⟩] 3 (by decide)).1⟩

/-- The two index conventions agree: the source's segment construction is
exactly the specification's clamped-end Catmull-Rom segment. -/
theorem segAt_eq_spec (pts : List Point) (i : ℕ) :
    segAt pts i = catmullSegFromSpec pts i := by
  unfold segAt catmullSegFromSpec
  have c1 : (0 < i) ↔ ¬ i = 0 := by omega
  have c2 : (i < pts.length - 2) ↔ i + 2 < pts.length := by omega
  simp only [c1, c2, ite_not]

/-- Indexing the generated segment list lands on `segAt`. -/
theorem segsOf_getD (pts : List Point) (i : ℕ) (h2 : 2 ≤ pts.length)
    (hi : i < pts.length - 1) :
    (generateSmoothPath pts).segsOf.getD i defaultSeg = segAt pts i := by
  rw [generateSmoothPath, if_neg (by omega)]
  show (((List.range (pts.length - 1)).map (fun i => segAt pts i)).getD i defaultSeg) = _
  rw [List.getD_eq_getElem?_getD, List.getElem?_map, List.getElem?_range hi]
  rfl

/-- Claim C5: on at least 2 points the path starts with a move to the first
point, has one cubic segment per consecutive pair, each segment is the
specification's clamped-end Catmull-Rom segment (`cp1 = p1 + (p2-p0)/6`,
`cp2 = p2 - (p3-p1)/6`, with `p0` falling back to `p1` at the start and `p3`
to `p2` at the end), and each segment ends exactly at `p2` — so the curve
passes through every input point. -/
theorem curve_passthrough (pts : List Point) (h2 : 2 ≤ pts.length) :
    (generateSmoothPath pts).startOf
        = some ((pts.getD 0 defaultPoint).x, (pts.getD 0 defaultPoint).y)
    ∧ (generateSmoothPath pts).segsOf.length = pts.length - 1
    ∧ ∀ i, i < pts.length - 1 →
        (generateSmoothPath pts).segsOf.getD i defaultSeg = catmullSegFromSpec pts i
        ∧ ((generateSmoothPath pts).segsOf.getD i defaultSeg).endp
            = ((pts.getD (i + 1) defaultPoint).x, (pts.getD (i + 1) defaultPoint).y) := by
  have hlt : ¬ pts.length < 2 := by omega
  refine ⟨?_, ?_, ?_⟩
  · rw [generateSmoothPath, if_neg hlt]
    rfl
  · rw [generateSmoothPath, if_neg hlt]
    simp [PathDesc.segsOf]
  · intro i hi
    rw [segsOf_getD pts i h2 hi]
    exact ⟨segAt_eq_spec pts i, rfl⟩

/-- Witness for C5 on a concrete two-point history. -/
theorem curve_passthrough_witness :
    2 ≤ ([⟨0, 0, 1⟩, ⟨6, 0, 0⟩] : List Point).length
    ∧ (generateSmoothPath [⟨0, 0, 1⟩, ⟨6, 0, 0⟩]).startOf
        = some ((([⟨0, 0, 1⟩, ⟨6, 0, 0⟩] : List Point).getD 0 defaultPoint).x,
            (([⟨0, 0, 1⟩, ⟨6, 0, 0⟩] : List Point).getD 0 defaultPoint).y) :=
  ⟨by decide, (curve_passthrough [⟨0, 0, 1⟩, ⟨6, 0, 0⟩] (by decide)).1⟩

end CursorTrail
